import Mathlib

/-!
Verification of the append-only segmented key-value store in
`datastore/db.go` (single-writer log store with rotation, recovery and
compaction).

The embedding below translates the Go source into executable Lean
definitions: byte strings become `List Nat`, Go's `uint32` arithmetic is
`% 2^32`, file contents are the byte lists held by each `segment`, and the
fallible operations return small result inductives.  Loops that walk a byte
stream (`scanSegment`, `copyUnique`) are written with an explicit fuel
argument initialised to the stream length; this is a sound bound because
every successfully decoded record consumes at least 8 bytes, so a stream of
length `L` can never need more than `L` iterations.
-/

namespace datastore

/-- Go `uint32` truncation: the low 32 bits of a natural number. -/
def u32 (n : Nat) : Nat := n % 4294967296

/-- Little-endian 4-byte encoding, as written by `binary.LittleEndian.PutUint32`
(the argument is implicitly truncated to 32 bits, exactly like Go's
`uint32(kl)` conversion). -/
def le32enc (n : Nat) : List Nat :=
  [n % 256, n / 256 % 256, n / 65536 % 256, n / 16777216 % 256]

/-- Little-endian 4-byte decoding, as read by `binary.LittleEndian.Uint32`.
All call sites pass a list of length ≥ 4; the catch-all returns 0. -/
def le32dec : List Nat → Nat
  | a :: b :: c :: d :: _ => a + 256 * b + 65536 * c + 16777216 * d
  | _ => 0

/-- The `entry` struct of the source: one `(key, value)` record. -/
structure entry where
  key : List Nat
  value : List Nat
deriving DecidableEq

/-- `entry.Encode`: header of two little-endian u32 lengths followed by key
bytes and value bytes. -/
def entry.Encode (e : entry) : List Nat :=
  le32enc e.key.length ++ le32enc e.value.length ++ e.key ++ e.value

/-- Errors of the sized-buffer decoder `entry.Decode`.  `shortHeader` and
`shortBody` are the two `fmt.Errorf` returns; `sliceOOR` models the Go
runtime fault raised when the (u32-wrapped) slice bounds `data[8:8+kl]` /
`data[8+kl:8+kl+vl]` are out of range. -/
inductive DecodeErr
  | shortHeader
  | shortBody
  | sliceOOR
deriving DecidableEq

inductive DecodeResult
  | ok (e : entry)
  | err (er : DecodeErr)
deriving DecidableEq

/-- `entry.Decode`: decode one record from a sized buffer.  The length check
`int(8+kl+vl) > len(data)` and the slice indices `8+kl`, `8+kl+vl` are
computed in Go's `uint32` arithmetic, hence the `u32` wrappers. -/
def entry.Decode (data : List Nat) : DecodeResult :=
  if data.length < 8 then .err .shortHeader
  else
    let kl := le32dec (data.take 4)
    let vl := le32dec ((data.drop 4).take 4)
    if data.length < u32 (8 + kl + vl) then .err .shortBody
    else
      let hi1 := u32 (8 + kl)
      let hi2 := u32 (8 + kl + vl)
      if 8 ≤ hi1 ∧ hi1 ≤ hi2 ∧ hi2 ≤ data.length then
        .ok ⟨(data.take hi1).drop 8, (data.take hi2).drop hi1⟩
      else .err .sliceOOR

/-- Error values of the streaming path.  `eof` is Go's `io.EOF`,
`unexpectedEOF` is `io.ErrUnexpectedEOF`; `sliceRangeErr` models the runtime
fault of `buf[:kl]` when `kl+vl` wrapped below `kl`. -/
inductive ReadErr
  | eof
  | unexpectedEOF
  | sliceRangeErr
deriving DecidableEq

inductive ReadResult
  | ok (bytes rest : List Nat)
  | err (er : ReadErr)
deriving DecidableEq

/-- `io.ReadFull` on a byte stream: asking for `n` bytes yields `io.EOF` when
no byte is available (and `n > 0`), `io.ErrUnexpectedEOF` when some but not
all are, and otherwise the `n` bytes and the remaining stream. -/
def readFull (stream : List Nat) (n : Nat) : ReadResult :=
  if n = 0 then .ok [] stream
  else if stream.length = 0 then .err .eof
  else if stream.length < n then .err .unexpectedEOF
  else .ok (stream.take n) (stream.drop n)

inductive StreamResult
  | ok (e : entry) (n : Nat) (rest : List Nat)
  | err (er : ReadErr)
deriving DecidableEq

/-- `entry.DecodeFromReader`: read an 8-byte header, then `kl+vl` body bytes
(the body allocation `make([]byte, kl+vl)` is u32 arithmetic, hence `u32`),
returning the record, the consumed byte count `8+int(kl)+int(vl)` and the
rest of the stream. -/
def entry.DecodeFromReader (stream : List Nat) : StreamResult :=
  match readFull stream 8 with
  | .err e => .err e
  | .ok hdr rest1 =>
    let kl := le32dec (hdr.take 4)
    let vl := le32dec (hdr.drop 4)
    match readFull rest1 (u32 (kl + vl)) with
    | .err e => .err e
    | .ok buf rest2 =>
      if kl ≤ buf.length then .ok ⟨buf.take kl, buf.drop kl⟩ (8 + kl + vl) rest2
      else .err .sliceRangeErr

/-- The `position` struct: segment reference (−1 = active) and byte offset. -/
structure position where
  segID : Int
  offset : Nat
deriving DecidableEq

/-- The in-memory index, a key → position map modelled as an association
list with unique keys (Go map iteration order is unspecified, so only the
lookup function matters). -/
abbrev Index := List (List Nat × position)

def idxFind (idx : Index) (k : List Nat) : Option position :=
  match idx.find? (fun kv => kv.1 == k) with
  | some kv => some kv.2
  | none => none

def idxPut (idx : Index) (k : List Nat) (p : position) : Index :=
  (k, p) :: idx.filter (fun kv => !(kv.1 == k))

/-- The `segment` struct: id (−1 for the active segment), tracked `size`,
and the bytes of the backing file. -/
structure segment where
  id : Int
  size : Nat
  data : List Nat
deriving DecidableEq

/-- The `DB` struct.  `maxSegmentSize` is the package-global
`MaxSegmentSize` (one store per process in every claim, so it lives here). -/
structure DB where
  segments : List segment
  active : segment
  index : Index
  maxSegmentSize : Int
deriving DecidableEq

def isDigitCh (c : Char) : Bool := 48 ≤ c.toNat && c.toNat ≤ 57

def digitsVal (cs : List Char) : Nat := cs.foldl (fun a c => a * 10 + (c.toNat - 48)) 0

def digitsOk (cs : List Char) : Bool := !cs.isEmpty && cs.all isDigitCh

/-- `strconv.ParseInt(s, 10, 64)` restricted to the value the caller uses:
malformed numerals yield 0 (the returned error is discarded at the call site),
out-of-range positive values are clamped to `MaxInt64`, out-of-range
negative values to `MinInt64`. -/
def goParseInt64 (s : List Char) : Int :=
  match s with
  | [] => 0
  | c :: rest =>
    let ds : List Char := if c = '-' || c = '+' then rest else c :: rest
    if digitsOk ds then
      let n : Int := (digitsVal ds : Nat)
      if c = '-' then (if 9223372036854775808 < n then -9223372036854775808 else -n)
      else (if 9223372036854775807 < n then 9223372036854775807 else n)
    else 0

/-- The `SEG_MAX` re-read at the top of `doPut`: an empty (or unset)
environment value is skipped, otherwise `ParseInt`'s value replaces the
threshold exactly when it is positive. -/
def goUpdateThreshold (env : List Char) (cur : Int) : Int :=
  if env = [] then cur
  else if 0 < goParseInt64 env then goParseInt64 env else cur

/-- `rotateActive`: freeze the active file under id `last(segments).id + 1`
(0 when no frozen segment exists), rewrite every active-pointing index entry
to the new id, and start a fresh empty active segment. -/
def rotateActive (db : DB) : DB :=
  let nextID : Int :=
    match db.segments.getLast? with
    | none => 0
    | some s => s.id + 1
  let frozen : segment := { id := nextID, size := db.active.size, data := db.active.data }
  { db with
    segments := db.segments ++ [frozen]
    index := db.index.map (fun kv =>
      if kv.2.segID == -1 then (kv.1, { kv.2 with segID := nextID }) else kv)
    active := { id := -1, size := 0, data := [] } }

/-- `doPut`: re-read the threshold, append the encoded record to the active
file, advance the tracked size, point the index at the new record, and
rotate when the active size reached the threshold. -/
def doPut (env : List Char) (key value : List Nat) (db : DB) : DB :=
  let m := goUpdateThreshold env db.maxSegmentSize
  let data := entry.Encode ⟨key, value⟩
  let offset := db.active.size
  let db1 : DB := { db with
    maxSegmentSize := m
    active := { db.active with
      size := db.active.size + data.length
      data := db.active.data ++ data }
    index := idxPut db.index key ⟨-1, offset⟩ }
  if m ≤ (db1.active.size : Int) then rotateActive db1 else db1

/-- The loop body of `scanSegment`: decode records sequentially, indexing
each key at its running offset, until `io.EOF`; any other decoder error
aborts the scan (leaving the entries recorded so far).  `fuel` starts at the
stream length, a sufficient bound since each record consumes ≥ 8 bytes. -/
def scanLoop (sid : Int) : Nat → List Nat → Nat → Index → Index × Option ReadErr
  | 0, _, _, idx => (idx, none)
  | fuel + 1, stream, off, idx =>
    match entry.DecodeFromReader stream with
    | .err .eof => (idx, none)
    | .err e => (idx, some e)
    | .ok e n rest => scanLoop sid fuel rest (off + n) (idxPut idx e.key ⟨sid, off⟩)

def scanSegment (s : segment) (idx : Index) : Index × Option ReadErr :=
  scanLoop s.id s.data.length s.data 0 idx

/-- `recover`'s traversal: scan a list of segments in order, aborting on the
first scan error. -/
def scanAll : List segment → Index → Index × Option ReadErr
  | [], idx => (idx, none)
  | s :: rest, idx =>
    match scanSegment s idx with
    | (idx1, none) => scanAll rest idx1
    | (idx1, some e) => (idx1, some e)

/-- A data directory: the frozen `segment-N.data` files (id and contents)
and the `current-data` file's contents. -/
structure Dir where
  frozenFiles : List (Int × List Nat)
  activeFile : List Nat
deriving DecidableEq

def dirOf (db : DB) : Dir :=
  ⟨db.segments.map (fun s => (s.id, s.data)), db.active.data⟩

def insertById (x : Int × List Nat) : List (Int × List Nat) → List (Int × List Nat)
  | [] => [x]
  | y :: rest => if x.1 ≤ y.1 then x :: y :: rest else y :: insertById x rest

/-- `sort.Ints` over the discovered segment ids (each id determines its
file, so sorting the (id, contents) pairs by id is the same discovery
order). -/
def sortById : List (Int × List Nat) → List (Int × List Nat)
  | [] => []
  | x :: rest => insertById x (sortById rest)

/-- `loadSegments`: open the frozen segments in ascending id order with
sizes from `Stat`, then open (or create) the active file. -/
def loadSegments (d : Dir) : DB :=
  { segments := (sortById d.frozenFiles).map (fun p => { id := p.1, size := p.2.length, data := p.2 })
    active := { id := -1, size := d.activeFile.length, data := d.activeFile }
    index := []
    maxSegmentSize := 10485760 }

inductive OpenResult
  | ok (db : DB)
  | err (er : ReadErr)
deriving DecidableEq

/-- `Open` minus the background goroutines: `loadSegments` then `recover`
(scan every frozen segment in id order, then the active segment). -/
def Open (d : Dir) : OpenResult :=
  let db := loadSegments d
  match scanAll (db.segments ++ [db.active]) [] with
  | (idx, none) => .ok { db with index := idx }
  | (_, some e) => .err e

/-- Errors of `Get`: `notFound` is `ErrNotFound`, `invalidSegment` the
"invalid segment ID" branch, `ioErr` a short `ReadAt`, `sliceErr` the
runtime fault of `buf[8:]` when the u32-wrapped total record size is below
8, and `decodeFailed` wraps an `entry.Decode` error. -/
inductive GetErr
  | notFound
  | invalidSegment
  | ioErr
  | sliceErr
  | decodeFailed (er : DecodeErr)
deriving DecidableEq

inductive GetResult
  | ok (v : List Nat)
  | err (er : GetErr)
deriving DecidableEq

/-- The positional-read tail of `Get`: read the 8-byte header at `off`,
compute `totalSize = int64(8+kl+vl)` (u32 arithmetic, hence `u32`), read the
rest of the record, and decode the assembled buffer. -/
def readValueAt (s : segment) (off : Nat) : GetResult :=
  if s.data.length < off + 8 then .err .ioErr
  else
    let hdr := (s.data.drop off).take 8
    let kl := le32dec (hdr.take 4)
    let vl := le32dec (hdr.drop 4)
    let total := u32 (8 + kl + vl)
    if total < 8 then .err .sliceErr
    else if 8 < total ∧ s.data.length < off + total then .err .ioErr
    else
      match entry.Decode ((s.data.drop off).take total) with
      | .ok e => .ok e.value
      | .err er => .err (.decodeFailed er)

/-- `segIdx`-based segment resolution: first frozen segment whose id
matches. -/
def segFor (db : DB) (sid : Int) : Option segment :=
  db.segments.find? (fun s => s.id == sid)

/-- `Get`: index lookup, segment resolution, positional read. -/
def DB.Get (db : DB) (key : List Nat) : GetResult :=
  match idxFind db.index key with
  | none => .err .notFound
  | some pos =>
    if pos.segID == -1 then readValueAt db.active pos.offset
    else
      match segFor db pos.segID with
      | none => .err .invalidSegment
      | some s => readValueAt s pos.offset

/-- `Size`: the sum of the tracked sizes of all frozen segments plus the
active segment. -/
def DB.Size (db : DB) : Nat :=
  db.segments.foldl (fun t s => t + s.size) 0 + db.active.size

/-- The loop body of `copyUnique`: decode the source segment sequentially,
appending the re-encoded record to the destination whenever its key has not
been seen yet.  Fuel as in `scanLoop`. -/
def copyLoop : Nat → List Nat → List Nat → List (List Nat) →
    (List Nat × List (List Nat)) × Option ReadErr
  | 0, _, dst, seen => ((dst, seen), none)
  | fuel + 1, stream, dst, seen =>
    match entry.DecodeFromReader stream with
    | .err .eof => ((dst, seen), none)
    | .err e => ((dst, seen), some e)
    | .ok e _ rest =>
      if seen.contains e.key then copyLoop fuel rest dst seen
      else copyLoop fuel rest (dst ++ entry.Encode e) (e.key :: seen)

def copyUnique (src : segment) (dst : List Nat) (seen : List (List Nat)) :
    (List Nat × List (List Nat)) × Option ReadErr :=
  copyLoop src.data.length src.data dst seen

/-- `merge`'s walk over the frozen segments in reverse id order (the source
iterates `db.segments` from the last element down to the first). -/
def mergeCopy : List segment → List Nat → List (List Nat) →
    (List Nat × List (List Nat)) × Option ReadErr
  | [], dst, seen => ((dst, seen), none)
  | s :: rest, dst, seen =>
    match copyUnique s dst seen with
    | ((dst1, seen1), none) => mergeCopy rest dst1 seen1
    | (r, some e) => (r, some e)

/-- The `maxID` fold at the top of `merge` (start value −1). -/
def maxFrozenId (db : DB) : Int :=
  db.segments.foldl (fun m s => max m s.id) (-1)

/-- `merge`: no-op below two frozen segments; otherwise build the compacted
file newest-segment-first, install it as the single frozen segment
`segment-(maxID+1)`, and rebuild the index by scanning it and then the
active segment.  A copy error occurs before the rename, leaving the store
untouched; a rebuild scan error leaves the half-rebuilt index, as in
the source.  (The source re-reads the active file through its long-lived
handle; its contents are what the rebuild scan walks.) -/
def merge (db : DB) : DB × Option ReadErr :=
  if db.segments.length < 2 then (db, none)
  else
    let mergedID := maxFrozenId db + 1
    match mergeCopy db.segments.reverse [] [] with
    | (_, some e) => (db, some e)
    | ((dst, _), none) =>
      let mseg : segment := { id := mergedID, size := dst.length, data := dst }
      match scanSegment mseg [] with
      | (idx1, some e) => ({ db with segments := [mseg], index := idx1 }, some e)
      | (idx1, none) =>
        match scanSegment db.active idx1 with
        | (idx2, oe) => ({ db with segments := [mseg], index := idx2 }, oe)

def Merge (db : DB) : DB × Option ReadErr := merge db

/-- One store operation: a `Put` (with the `SEG_MAX` value visible to it)
or a compaction pass (explicit `Merge` or a compactor tick). -/
inductive Op
  | putOp (env : List Char) (key value : List Nat)
  | mergeOp
deriving DecidableEq

def step (db : DB) : Op → DB
  | .putOp env k v => doPut env k v db
  | .mergeOp => (merge db).1

def run (db : DB) : List Op → DB
  | [] => db
  | op :: rest => run (step db op) rest

/-- The store `Open` yields on an empty directory: no frozen segments, an
empty active file, an empty index, and the 10 MiB default threshold. -/
def initDB : DB :=
  { segments := []
    active := { id := -1, size := 0, data := [] }
    index := []
    maxSegmentSize := 10485760 }

/-- The frozen-segment ids created by executing `op` in state `db` (ids
present afterwards that were not present before). -/
def newSegIds (db : DB) (op : Op) : List Int :=
  ((step db op).segments.map (fun s => s.id)).filter
    (fun i => decide (¬ i ∈ db.segments.map (fun s => s.id)))

/-- All segment ids assigned over a run, in assignment order. -/
def assignedIds (db : DB) : List Op → List Int
  | [] => []
  | op :: rest => newSegIds db op ++ assignedIds (step db op) rest

/-- A record as a plain key/value pair. -/
abbrev Rec := List Nat × List Nat

def encRec (r : Rec) : List Nat := entry.Encode ⟨r.1, r.2⟩

def encAll : List Rec → List Nat
  | [] => []
  | r :: rest => encRec r ++ encAll rest

def recsOfOps : List Op → List Rec
  | [] => []
  | .putOp _ k v :: rest => (k, v) :: recsOfOps rest
  | .mergeOp :: rest => recsOfOps rest

/-- The value of the last `Put` of a key within a record sequence. -/
def lastPut : List Rec → List Nat → Option (List Nat)
  | [], _ => none
  | r :: rest, k =>
    match lastPut rest k with
    | some v => some v
    | none => if r.1 = k then some r.2 else none

/-- Modelled from the spec (§8 property 4): the lower bound "sum over
distinct keys of `8 + |k| + |latest v|`" that `Size()` is claimed to
dominate. -/
def specLowerBound (rs : List Rec) : Nat :=
  ((rs.map Prod.fst).dedup.map (fun k =>
    match lastPut rs k with
    | some v => 8 + k.length + v.length
    | none => 0)).sum

/-- A record whose on-disk length fits the u32 header arithmetic. -/
abbrev BoundedRec (r : Rec) : Prop := 8 + r.1.length + r.2.length < 4294967296

abbrev putsOnly (ops : List Op) : Prop := ∀ op ∈ ops, op ≠ Op.mergeOp

/-- The frozen segments a crash-free put-only run produces: chunk `i` of the
record stream became `segment-i.data`. -/
def segsOf (i : Nat) : List (List Rec) → List segment
  | [] => []
  | c :: rest =>
    { id := (i : Int), size := (encAll c).length, data := encAll c } :: segsOf (i + 1) rest

/-- Representation of a put-only run: the frozen segments hold the record
chunks in rotation order and the active file holds the tail chunk. -/
def ReprDB (db : DB) (chunks : List (List Rec)) (act : List Rec) : Prop :=
  db.segments = segsOf 0 chunks ∧
  db.active = { id := -1, size := (encAll act).length, data := encAll act }

/-- A located record: owning segment reference, byte offset, record. -/
abbrev LocRec := Int × Nat × Rec

def locate (sid : Int) (base : Nat) : List Rec → List LocRec
  | [] => []
  | r :: rest => (sid, base, r) :: locate sid (base + (encRec r).length) rest

def locChunks (i : Nat) : List (List Rec) → List LocRec
  | [] => []
  | c :: rest => locate (i : Int) 0 c ++ locChunks (i + 1) rest

/-- Replay a located record list into the index (last write wins). -/
def scanL (idx : Index) : List LocRec → Index
  | [] => idx
  | lr :: rest => scanL (idxPut idx lr.2.2.1 ⟨lr.1, lr.2.1⟩) rest

/-- The last located record carrying a given key. -/
def lastLocR : List LocRec → List Nat → Option (position × Rec)
  | [], _ => none
  | lr :: rest, k =>
    match lastLocR rest k with
    | some pr => some pr
    | none => if lr.2.2.1 = k then some (⟨lr.1, lr.2.1⟩, lr.2.2) else none

/-- A 4 GiB key: the smallest key length at which the u32 header wraps. -/
def giantKey : List Nat := List.replicate 4294967296 0

/-- The C10 counterexample buffer: a header claiming a 2^32−1 byte key in
front of 2^32 zero bytes. -/
def c10data : List Nat := [255,255,255,255,0,0,0,0] ++ List.replicate 4294967296 0

/-- The `SEG_MAX` value used by the giant-key run: large enough that the
4 GiB record does not trigger a rotation. -/
def envBig : List Char := "99999999999999999".toList

/-- Modelled from the spec (§6 configuration): a `SEG_MAX` string is a
syntactically valid decimal numeral — an optional sign followed by at least
one digit — denoting the integer it spells; anything else denotes nothing. -/
def denotesInt? (s : List Char) : Option Int :=
  match s with
  | [] => none
  | c :: rest =>
    let ds : List Char := if c = '-' || c = '+' then rest else c :: rest
    if digitsOk ds then
      some (if c = '-' then -((digitsVal ds : Nat) : Int) else ((digitsVal ds : Nat) : Int))
    else none

/-- The operation sequence exhibiting the compaction duplicate-key bug:
`SEG_MAX=30`; `Put(a,1)`, `Put(a,2)`, `Put(b,3)` fill and freeze segment 0;
`Put(c,4)`, `Put(c,5)`, `Put(c,6)` fill and freeze segment 1; `Merge`. -/
def opsMergeDup : List Op :=
  [ .putOp ['3','0'] [97] [49]
  , .putOp [] [97] [50]
  , .putOp [] [98] [51]
  , .putOp [] [99] [52]
  , .putOp [] [99] [53]
  , .putOp [] [99] [54]
  , .mergeOp ]

/-- Same shape as `opsMergeDup` but the overwritten value of `a` is longer
than the first, so the stale survivor is smaller than the newest record. -/
def opsSizeDup : List Op :=
  [ .putOp ['3','0'] [97] [49]
  , .putOp [] [97] [50, 50]
  , .putOp [] [98] [51]
  , .putOp [] [99] [52]
  , .putOp [] [99] [53]
  , .putOp [] [99] [54]
  , .mergeOp ]

/-- Frozen segment ids are non-negative and strictly increasing along the
list. -/
abbrev SegInv (db : DB) : Prop :=
  (db.segments.map (fun s => s.id)).Pairwise (· < ·) ∧ ∀ s ∈ db.segments, 0 ≤ s.id

/-- Concatenation of the record chunks of a run. -/
def catChunks : List (List Rec) → List Rec
  | [] => []
  | c :: cs => c ++ catChunks cs

theorem le32enc_length (n : Nat) : (le32enc n).length = 4 := rfl

theorem le32dec_le32enc (n : Nat) : le32dec (le32enc n) = n % 4294967296 := by
  simp only [le32enc, le32dec]
  omega

theorem encode_length (k v : List Nat) :
    (entry.Encode ⟨k, v⟩).length = 8 + k.length + v.length := by
  simp [entry.Encode, le32enc]
  omega

theorem encode_def (k v : List Nat) :
    entry.Encode ⟨k, v⟩ = le32enc k.length ++ le32enc v.length ++ (k ++ v) := by
  simp [entry.Encode]

theorem decode_encode (k v : List Nat) (hb : 8 + k.length + v.length < 4294967296) :
    entry.Decode (entry.Encode ⟨k, v⟩) = .ok ⟨k, v⟩ := by
  have hlen := encode_length k v
  rw [encode_def] at hlen ⊢
  set data := le32enc k.length ++ le32enc v.length ++ (k ++ v) with hdata
  have h8 : (le32enc k.length ++ le32enc v.length).length = 8 := by simp [le32enc]
  have hassoc : data = (le32enc k.length ++ le32enc v.length) ++ (k ++ v) := by
    rw [hdata, List.append_assoc]
  have h1 : data.take 4 = le32enc k.length := by
    rw [hdata, List.append_assoc, List.take_append_of_le_length (by simp [le32enc])]
    simp [le32enc]
  have h2 : (data.drop 4).take 4 = le32enc v.length := by
    rw [hdata, List.append_assoc, List.drop_append_of_le_length (by simp [le32enc])]
    simp [le32enc]
  have hsub : 8 + k.length - 8 = k.length := by omega
  have h3 : (data.take (8 + k.length)).drop 8 = k := by
    rw [hassoc, List.take_append_eq_append_take, h8,
      List.take_of_length_le (by rw [h8]; omega), hsub, List.take_left]
    conv_lhs => rw [← h8, List.drop_left]
  have h4 : (data.take (8 + k.length + v.length)).drop (8 + k.length) = v := by
    rw [hassoc, List.take_of_length_le (by simp [le32enc]; omega),
      List.drop_append_eq_append_drop, h8, List.drop_of_length_le (by rw [h8]; omega),
      hsub, List.nil_append, List.drop_left]
  have hk : k.length % 4294967296 = k.length := Nat.mod_eq_of_lt (by omega)
  have hv : v.length % 4294967296 = v.length := Nat.mod_eq_of_lt (by omega)
  simp only [entry.Decode, h1, h2, le32dec_le32enc, hk, hv, hlen, u32]
  have hu1 : (8 + k.length) % 4294967296 = 8 + k.length := Nat.mod_eq_of_lt (by omega)
  have hu2 : (8 + k.length + v.length) % 4294967296 = 8 + k.length + v.length :=
    Nat.mod_eq_of_lt (by omega)
  rw [hu1, hu2, if_neg (by omega), if_neg (by omega), if_pos (by omega)]
  rw [h3, h4]

theorem hdr8_take (k v : List Nat) :
    (le32enc k.length ++ le32enc v.length).take 4 = le32enc k.length := by
  rw [List.take_append_of_le_length (by simp [le32enc])]
  simp [le32enc]

theorem hdr8_drop (k v : List Nat) :
    (le32enc k.length ++ le32enc v.length).drop 4 = le32enc v.length := by
  rw [List.drop_append_of_le_length (by simp [le32enc])]
  simp [le32enc]

theorem decodeFromReader_encode (k v rest : List Nat)
    (hb : 8 + k.length + v.length < 4294967296) :
    entry.DecodeFromReader (entry.Encode ⟨k, v⟩ ++ rest) =
      .ok ⟨k, v⟩ (8 + k.length + v.length) rest := by
  have hs : entry.Encode ⟨k, v⟩ ++ rest =
      (le32enc k.length ++ le32enc v.length) ++ ((k ++ v) ++ rest) := by
    rw [encode_def]
    simp [List.append_assoc]
  rw [hs]
  set hdr8 := le32enc k.length ++ le32enc v.length with hh
  have h8 : hdr8.length = 8 := by simp [hh, le32enc]
  have hL : (hdr8 ++ ((k ++ v) ++ rest)).length = 8 + ((k ++ v) ++ rest).length := by
    simp [h8]
  have hrf1 : readFull (hdr8 ++ ((k ++ v) ++ rest)) 8 = .ok hdr8 ((k ++ v) ++ rest) := by
    unfold readFull
    rw [if_neg (by omega), if_neg (by omega), if_neg (by omega)]
    conv_lhs => rw [← h8, List.take_left, List.drop_left]
  have hk : k.length % 4294967296 = k.length := Nat.mod_eq_of_lt (by omega)
  have hv : v.length % 4294967296 = v.length := Nat.mod_eq_of_lt (by omega)
  have hu : u32 (k.length + v.length) = k.length + v.length := Nat.mod_eq_of_lt (by omega)
  have hkv : (k ++ v).length = k.length + v.length := by simp
  by_cases hz : k.length + v.length = 0
  · have hk0 : k = [] := List.eq_nil_of_length_eq_zero (by omega)
    have hv0 : v = [] := List.eq_nil_of_length_eq_zero (by omega)
    subst hk0; subst hv0
    simp only [entry.DecodeFromReader, hrf1, hh, hdr8_take, hdr8_drop, le32dec_le32enc]
    simp [readFull, u32]
  · have hL2 : ((k ++ v) ++ rest).length = k.length + v.length + rest.length := by
      rw [List.length_append, List.length_append]
    have hrf2 : readFull ((k ++ v) ++ rest) (u32 (k.length + v.length)) =
        .ok (k ++ v) rest := by
      unfold readFull
      rw [hu, if_neg (by omega), if_neg (by rw [hL2]; omega), if_neg (by rw [hL2]; omega)]
      conv_lhs => rw [← hkv, List.take_left, List.drop_left]
    simp only [entry.DecodeFromReader, hrf1, hh, hdr8_take, hdr8_drop, le32dec_le32enc,
      hk, hv, hrf2]
    rw [if_pos (by rw [hkv]; omega)]
    rw [List.take_left, List.drop_left]

theorem giantKey_length : giantKey.length = 4294967296 := by
  rw [giantKey]
  exact List.length_replicate 4294967296 0

/-- Round-trip failure at any key of length exactly 2^32 and empty value:
the truncated header reads back as the empty record. -/
theorem decode_encode_wrap (k : List Nat) (hk : k.length = 4294967296) :
    entry.Decode (entry.Encode ⟨k, []⟩) = .ok ⟨[], []⟩ := by
  have he : entry.Encode ⟨k, []⟩ = ([0,0,0,0,0,0,0,0] : List Nat) ++ k := by
    rw [encode_def, hk]
    norm_num [le32enc]
  rw [he]
  have hL : (([0,0,0,0,0,0,0,0] : List Nat) ++ k).length = 4294967304 := by
    rw [List.length_append, hk]
    norm_num
  have h1 : (([0,0,0,0,0,0,0,0] : List Nat) ++ k).take 4 = [0,0,0,0] := by
    rw [List.take_append_of_le_length (by norm_num)]
    rfl
  have h2 : ((([0,0,0,0,0,0,0,0] : List Nat) ++ k).drop 4).take 4 = [0,0,0,0] := by
    rw [List.drop_append_of_le_length (by norm_num),
      List.take_append_of_le_length (by norm_num)]
    rfl
  have hd : le32dec [0, 0, 0, 0] = 0 := rfl
  simp only [entry.Decode, h1, h2, hd, hL, u32]
  norm_num

/-- C4 counterexample: at a key of length 2^32 the u32 header truncation of
`Encode` makes the round trip land on the empty pair. -/
theorem c4_roundtrip_cex :
    entry.Decode (entry.Encode ⟨giantKey, []⟩) = .ok ⟨[], []⟩ ∧
    (⟨[], []⟩ : entry) ≠ ⟨giantKey, []⟩ := by
  refine ⟨decode_encode_wrap giantKey giantKey_length, fun h => ?_⟩
  rw [entry.mk.injEq] at h
  have h2 := congrArg List.length h.1
  rw [giantKey_length] at h2
  exact absurd h2 (by norm_num)

/-- C4 (amended): the codec round-trips every record whose on-disk length
fits the u32 header, and the empty record encodes to exactly 8 bytes. -/
theorem c4_roundtrip :
    (∀ k v : List Nat, 8 + k.length + v.length < 4294967296 →
      entry.Decode (entry.Encode ⟨k, v⟩) = .ok ⟨k, v⟩) ∧
    (entry.Encode ⟨[], []⟩).length = 8 ∧
    entry.Decode (entry.Encode ⟨[], []⟩) = .ok ⟨[], []⟩ :=
  ⟨fun k v hb => decode_encode k v hb, by decide, by decide⟩

theorem c4_roundtrip_witness :
    entry.Decode (entry.Encode ⟨[97], [98, 99]⟩) = .ok ⟨[97], [98, 99]⟩ :=
  c4_roundtrip.1 [97] [98, 99] (by decide)

/-- Decoding a buffer whose header announces a 2^32−1 byte key faults on the
wrapped slice bound `8+kl`, for any sufficiently long tail. -/
theorem decode_wrap_fault (tl : List Nat) (ht : tl.length = 4294967296) :
    entry.Decode (([255,255,255,255,0,0,0,0] : List Nat) ++ tl) = .err .sliceOOR := by
  have hL : (([255,255,255,255,0,0,0,0] : List Nat) ++ tl).length = 4294967304 := by
    rw [List.length_append, ht]
    norm_num
  have h1 : (([255,255,255,255,0,0,0,0] : List Nat) ++ tl).take 4 = [255,255,255,255] := by
    rw [List.take_append_of_le_length (by norm_num)]
    rfl
  have h2 : ((([255,255,255,255,0,0,0,0] : List Nat) ++ tl).drop 4).take 4 = [0,0,0,0] := by
    rw [List.drop_append_of_le_length (by norm_num),
      List.take_append_of_le_length (by norm_num)]
    rfl
  simp only [entry.Decode, h1, h2, hL, u32]
  norm_num [le32dec]

theorem c10data_tail_length : (List.replicate 4294967296 (0 : Nat)).length = 4294967296 :=
  List.length_replicate 4294967296 0

/-- C10 counterexample: the buffer is strictly longer than
`8 + key_len + value_len`, yet `Decode` faults on the wrapped slice bound
instead of succeeding. -/
theorem c10_trailing_cex :
    le32dec (c10data.take 4) = 4294967295 ∧
    le32dec ((c10data.drop 4).take 4) = 0 ∧
    8 + le32dec (c10data.take 4) + le32dec ((c10data.drop 4).take 4) < c10data.length ∧
    entry.Decode c10data = .err .sliceOOR := by
  have h1 : c10data.take 4 = [255,255,255,255] := by
    rw [c10data, List.take_append_of_le_length (by norm_num)]
    rfl
  have h2 : (c10data.drop 4).take 4 = [0,0,0,0] := by
    rw [c10data, List.drop_append_of_le_length (by norm_num),
      List.take_append_of_le_length (by norm_num)]
    rfl
  have hL : c10data.length = 4294967304 := by
    rw [c10data, List.length_append, c10data_tail_length]
    norm_num
  refine ⟨by rw [h1]; rfl, by rw [h2]; rfl, by rw [h1, h2, hL]; norm_num [le32dec], ?_⟩
  rw [c10data]
  exact decode_wrap_fault _ c10data_tail_length

/-- C10 (amended): when the true record length fits u32, a buffer strictly
longer than `8 + key_len + value_len` decodes successfully to the record
held in its prefix, ignoring the trailing bytes. -/
theorem c10_decode_trailing (data : List Nat)
    (hb : 8 + le32dec (data.take 4) + le32dec ((data.drop 4).take 4) < 4294967296)
    (hlt : 8 + le32dec (data.take 4) + le32dec ((data.drop 4).take 4) < data.length) :
    entry.Decode data =
      .ok ⟨(data.take (8 + le32dec (data.take 4))).drop 8,
           (data.take (8 + le32dec (data.take 4) + le32dec ((data.drop 4).take 4))).drop
             (8 + le32dec (data.take 4))⟩ := by
  have hu2 : u32 (8 + le32dec (data.take 4) + le32dec ((data.drop 4).take 4)) =
      8 + le32dec (data.take 4) + le32dec ((data.drop 4).take 4) :=
    Nat.mod_eq_of_lt (by omega)
  have hu1 : u32 (8 + le32dec (data.take 4)) = 8 + le32dec (data.take 4) :=
    Nat.mod_eq_of_lt (by omega)
  simp only [entry.Decode, hu1, hu2]
  rw [if_neg (by omega), if_neg (by omega), if_pos (by omega)]

theorem c10_decode_trailing_witness :
    entry.Decode [1,0,0,0,1,0,0,0,97,98,99] = .ok ⟨[97], [98]⟩ :=
  (c10_decode_trailing [1,0,0,0,1,0,0,0,97,98,99] (by decide) (by decide)).trans (by decide)

/-- C5 counterexample: a complete 8-byte header announcing a 1-byte body,
followed by end of stream, fails with the same `io.EOF` value as the
zero-bytes case (and not with the `io.ErrUnexpectedEOF` that a short header
produces), so a premature body end is not a distinct `ShortBody` signal. -/
theorem c5_body_eof_cex :
    entry.DecodeFromReader [1,0,0,0,0,0,0,0] = .err .eof ∧
    entry.DecodeFromReader [] = .err .eof ∧
    entry.DecodeFromReader [1,0,0,0] = .err .unexpectedEOF := by
  refine ⟨by decide, by decide, by decide⟩

theorem readFull_split (stream : List Nat) (n : Nat) (hn : n ≤ stream.length) :
    readFull stream n = .ok (stream.take n) (stream.drop n) := by
  unfold readFull
  by_cases h0 : n = 0
  · subst h0
    rw [if_pos rfl, List.take_zero, List.drop_zero]
  · rw [if_neg h0, if_neg (by omega), if_neg (by omega)]

theorem dfr_header (stream : List Nat) (h8 : 8 ≤ stream.length) :
    entry.DecodeFromReader stream =
      (match readFull (stream.drop 8)
          (u32 (le32dec (stream.take 4) + le32dec ((stream.drop 4).take 4))) with
       | .err e => .err e
       | .ok buf rest2 =>
         if le32dec (stream.take 4) ≤ buf.length then
           .ok ⟨buf.take (le32dec (stream.take 4)), buf.drop (le32dec (stream.take 4))⟩
             (8 + le32dec (stream.take 4) + le32dec ((stream.drop 4).take 4)) rest2
         else .err .sliceRangeErr) := by
  have hr : readFull stream 8 = .ok (stream.take 8) (stream.drop 8) :=
    readFull_split stream 8 h8
  have hkl : (stream.take 8).take 4 = stream.take 4 := by
    rw [List.take_take]
    norm_num
  have hvl : (stream.take 8).drop 4 = (stream.drop 4).take 4 := by
    rw [List.drop_take]
  simp only [entry.DecodeFromReader, hr, hkl, hvl]

/-- C5 (amended): the streaming decoder fails with `io.EOF` when zero bytes
are available, with `io.ErrUnexpectedEOF` when 1–7 header bytes are
available, with `io.EOF` again — the same value as the end-of-stream
signal, not a distinct `ShortBody` — when a complete header is followed by
zero of the needed body bytes, with `io.ErrUnexpectedEOF` when the body is
present but short, and on success returns the entry together with the total
byte count `8 + key_len + value_len` (stated for headers whose body length
fits u32). -/
theorem c5_stream_decoder (stream : List Nat) :
    (stream.length = 0 → entry.DecodeFromReader stream = .err .eof) ∧
    (1 ≤ stream.length → stream.length ≤ 7 →
      entry.DecodeFromReader stream = .err .unexpectedEOF) ∧
    (8 ≤ stream.length →
      le32dec (stream.take 4) + le32dec ((stream.drop 4).take 4) < 4294967296 →
      ((0 < le32dec (stream.take 4) + le32dec ((stream.drop 4).take 4) →
         stream.length = 8 → entry.DecodeFromReader stream = .err .eof) ∧
       (8 < stream.length →
         stream.length < 8 + le32dec (stream.take 4) + le32dec ((stream.drop 4).take 4) →
         entry.DecodeFromReader stream = .err .unexpectedEOF) ∧
       (8 + le32dec (stream.take 4) + le32dec ((stream.drop 4).take 4) ≤ stream.length →
         entry.DecodeFromReader stream =
           .ok ⟨((stream.drop 8).take
                   (le32dec (stream.take 4) + le32dec ((stream.drop 4).take 4))).take
                 (le32dec (stream.take 4)),
                ((stream.drop 8).take
                   (le32dec (stream.take 4) + le32dec ((stream.drop 4).take 4))).drop
                 (le32dec (stream.take 4))⟩
             (8 + le32dec (stream.take 4) + le32dec ((stream.drop 4).take 4))
             (stream.drop
               (8 + le32dec (stream.take 4) + le32dec ((stream.drop 4).take 4)))))) := by
  refine ⟨?_, ?_, ?_⟩
  · intro h0
    rw [List.eq_nil_of_length_eq_zero h0]
    rfl
  · intro h1 h7
    have hr : readFull stream 8 = .err .unexpectedEOF := by
      unfold readFull
      rw [if_neg (by omega), if_neg (by omega), if_pos (by omega)]
    simp only [entry.DecodeFromReader, hr]
  · intro h8 hb
    have hu : u32 (le32dec (stream.take 4) + le32dec ((stream.drop 4).take 4)) =
        le32dec (stream.take 4) + le32dec ((stream.drop 4).take 4) :=
      Nat.mod_eq_of_lt (by omega)
    refine ⟨?_, ?_, ?_⟩
    · intro hpos hlen
      rw [dfr_header stream h8, hu]
      have hr : readFull (stream.drop 8)
          (le32dec (stream.take 4) + le32dec ((stream.drop 4).take 4)) = .err .eof := by
        unfold readFull
        rw [if_neg (by omega), if_pos (by rw [List.length_drop]; omega)]
      simp only [hr]
    · intro hgt hlt
      rw [dfr_header stream h8, hu]
      have hr : readFull (stream.drop 8)
          (le32dec (stream.take 4) + le32dec ((stream.drop 4).take 4)) =
          .err .unexpectedEOF := by
        unfold readFull
        rw [if_neg (by omega), if_neg (by rw [List.length_drop]; omega),
          if_pos (by rw [List.length_drop]; omega)]
      simp only [hr]
    · intro hge
      rw [dfr_header stream h8, hu]
      have hr : readFull (stream.drop 8)
          (le32dec (stream.take 4) + le32dec ((stream.drop 4).take 4)) =
          .ok ((stream.drop 8).take
                (le32dec (stream.take 4) + le32dec ((stream.drop 4).take 4)))
              ((stream.drop 8).drop
                (le32dec (stream.take 4) + le32dec ((stream.drop 4).take 4))) :=
        readFull_split _ _ (by rw [List.length_drop]; omega)
      simp only [hr]
      rw [if_pos (by
        rw [List.length_take, List.length_drop]
        omega)]
      rw [List.drop_drop]
      simp only [Nat.add_assoc]

theorem c5_stream_decoder_witness :
    entry.DecodeFromReader [1,0,0,0,1,0,0,0,5,6] = .ok ⟨[5], [6]⟩ 10 [] :=
  ((((c5_stream_decoder [1,0,0,0,1,0,0,0,5,6]).2.2 (by decide) (by decide)).2.2
    (by decide))).trans (by decide)

theorem parse_of_not_denotes (s : List Char) (h : denotesInt? s = none) :
    goParseInt64 s = 0 := by
  cases s with
  | nil => rfl
  | cons c rest =>
    simp only [denotesInt?] at h
    simp only [goParseInt64]
    by_cases hd : digitsOk (if c = '-' || c = '+' then rest else c :: rest)
    · rw [if_pos hd] at h
      exact absurd h (by simp)
    · rw [if_neg hd]

theorem parse_of_denotes (s : List Char) (n : Int) (h : denotesInt? s = some n) :
    goParseInt64 s =
      if n < -9223372036854775808 then -9223372036854775808
      else if 9223372036854775807 < n then 9223372036854775807
      else n := by
  cases s with
  | nil => exact absurd h (by simp [denotesInt?])
  | cons c rest =>
    simp only [denotesInt?] at h
    simp only [goParseInt64]
    by_cases hd : digitsOk (if c = '-' || c = '+' then rest else c :: rest)
    · rw [if_pos hd] at h
      rw [if_pos hd]
      have hn := Option.some.inj h
      by_cases hm : c = '-'
      · rw [if_pos hm] at hn
        rw [if_pos hm]
        subst hn
        split_ifs <;> omega
      · rw [if_neg hm] at hn
        rw [if_neg hm]
        subst hn
        split_ifs <;> omega
    · rw [if_neg hd] at h
      exact absurd h (by simp)

theorem doPut_maxSeg (env : List Char) (k v : List Nat) (db : DB) :
    (doPut env k v db).maxSegmentSize = goUpdateThreshold env db.maxSegmentSize := by
  simp only [doPut]
  split <;> rfl

/-- C8 (amended): the threshold starts at the 10 MiB default and is
re-evaluated from `SEG_MAX` on every mutation; an empty, unparseable or
non-positive value leaves it unchanged; a positive in-range numeral installs
its value; but a positive numeral beyond `MaxInt64` is NOT ignored — it
installs the clamped value 2^63−1. -/
theorem c8_threshold (db : DB) (env : List Char) (k v : List Nat) :
    initDB.maxSegmentSize = 10485760 ∧
    (doPut [] k v db).maxSegmentSize = db.maxSegmentSize ∧
    (denotesInt? env = none → (doPut env k v db).maxSegmentSize = db.maxSegmentSize) ∧
    (∀ n : Int, denotesInt? env = some n → n ≤ 0 →
      (doPut env k v db).maxSegmentSize = db.maxSegmentSize) ∧
    (∀ n : Int, denotesInt? env = some n → 0 < n → n ≤ 9223372036854775807 →
      (doPut env k v db).maxSegmentSize = n) ∧
    (∀ n : Int, denotesInt? env = some n → 9223372036854775807 < n →
      (doPut env k v db).maxSegmentSize = 9223372036854775807) := by
  have henv : env ≠ [] → ∀ n : Int, denotesInt? env = some n →
      goParseInt64 env = if n < -9223372036854775808 then -9223372036854775808
        else if 9223372036854775807 < n then 9223372036854775807 else n :=
    fun _ n h => parse_of_denotes env n h
  refine ⟨rfl, ?_, ?_, ?_, ?_, ?_⟩
  · rw [doPut_maxSeg]
    rfl
  · intro h
    rw [doPut_maxSeg]
    unfold goUpdateThreshold
    by_cases he : env = []
    · rw [if_pos he]
    · rw [if_neg he, parse_of_not_denotes env h]
      rw [if_neg (by omega)]
  · intro n h hle
    rw [doPut_maxSeg]
    unfold goUpdateThreshold
    by_cases he : env = []
    · rw [if_pos he]
    · rw [if_neg he, henv he n h]
      rw [if_neg (by split_ifs <;> omega)]
  · intro n h hpos hmax
    rw [doPut_maxSeg]
    unfold goUpdateThreshold
    have he : env ≠ [] := by
      intro hc
      subst hc
      exact absurd h (by simp [denotesInt?])
    rw [if_neg he, henv he n h]
    rw [if_pos (by split_ifs <;> omega)]
    split_ifs <;> omega
  · intro n h hbig
    rw [doPut_maxSeg]
    unfold goUpdateThreshold
    have he : env ≠ [] := by
      intro hc
      subst hc
      exact absurd h (by simp [denotesInt?])
    rw [if_neg he, henv he n h]
    rw [if_pos (by split_ifs <;> omega)]
    split_ifs <;> omega

theorem c8_threshold_witness :
    (doPut ['4','2'] [97] [98] initDB).maxSegmentSize = 42 :=
  (c8_threshold initDB ['4','2'] [97] [98]).2.2.2.2.1 42 (by decide) (by decide) (by decide)

/-- C8 counterexample: `SEG_MAX=9223372036854775808` (one past `MaxInt64`)
is unparseable for `ParseInt`, yet the threshold does not keep its previous
value 10485760 — it becomes the clamped 9223372036854775807. -/
theorem c8_range_clamp_cex :
    initDB.maxSegmentSize = 10485760 ∧
    (doPut ("9223372036854775808".toList) [97] [98] initDB).maxSegmentSize =
      9223372036854775807 := by
  refine ⟨rfl, by decide⟩

/-- C9 (confirmed): with fewer than two frozen segments a compaction pass —
explicit `Merge` or a compactor tick — succeeds and changes nothing: not the
frozen list, not the index, not the active segment, not the directory. -/
theorem c9_merge_no_work (db : DB) (h : db.segments.length < 2) :
    merge db = (db, none) ∧ Merge db = (db, none) ∧ step db .mergeOp = db ∧
    dirOf (step db .mergeOp) = dirOf db := by
  have hm : merge db = (db, none) := by
    unfold merge
    rw [if_pos h]
  refine ⟨hm, hm, ?_, ?_⟩
  · simp only [step, hm]
  · simp only [step, hm]

theorem c9_merge_no_work_witness : merge initDB = (initDB, none) :=
  (c9_merge_no_work initDB (by decide)).1

/-- C1 (code bug): after `Put(a,"2")` succeeds and no later `Put` touches
key `a`, a `Get(a)` that follows the compaction returns the overwritten
value `"1"`: `copyUnique` walks each segment forward, so the oldest
duplicate inside a segment survives compaction. -/
theorem c1_lost_update :
    DB.Get (run initDB opsMergeDup) [97] = .ok [49] ∧
    lastPut (recsOfOps opsMergeDup) [97] = some [50] ∧
    (opsMergeDup.drop 2).all (fun op =>
      match op with
      | .putOp _ k _ => !(k == [97])
      | .mergeOp => true) = true := by
  refine ⟨by decide, by decide, by decide⟩

/-- C2 (code bug): `Merge` on the duplicate-key store leaves exactly one
frozen segment, but that segment retains the stale record `(a,"1")` rather
than the newest `(a,"2")`, and `Get(a)` disagrees with the last `Put`. -/
theorem c2_merge_keeps_stale :
    (run initDB opsMergeDup).segments.length = 1 ∧
    DB.Get (run initDB opsMergeDup) [97] = .ok [49] ∧
    lastPut (recsOfOps opsMergeDup) [97] = some [50] := by
  refine ⟨by decide, by decide, by decide⟩

/-- C7 (code bug): in the post-compaction state reached by `opsSizeDup`,
`Size()` is 30, strictly below the claimed lower bound 31 = Σ distinct keys
`8 + |k| + |latest v|`, because compaction kept the stale shorter record of
key `a`. -/
theorem c7_size_below_bound :
    DB.Size (run initDB opsSizeDup) = 30 ∧
    specLowerBound (recsOfOps opsSizeDup) = 31 ∧
    DB.Size (run initDB opsSizeDup) < specLowerBound (recsOfOps opsSizeDup) := by
  refine ⟨by decide, by decide, by decide⟩

theorem foldl_max_init (l : List Int) (a : Int) : a ≤ l.foldl max a := by
  induction l generalizing a with
  | nil => exact le_refl a
  | cons x xs ih => exact le_trans (le_max_left a x) (ih (max a x))

theorem foldl_max_mem (l : List Int) (a x : Int) (hx : x ∈ l) : x ≤ l.foldl max a := by
  induction l generalizing a with
  | nil => cases hx
  | cons y ys ih =>
    rcases List.mem_cons.mp hx with h | h
    · subst h
      exact le_trans (le_max_right a x) (foldl_max_init ys _)
    · exact ih _ h

theorem foldl_max_le_of (l : List Int) (a b : Int) (ha : a ≤ b) (h : ∀ x ∈ l, x ≤ b) :
    l.foldl max a ≤ b := by
  induction l generalizing a with
  | nil => exact ha
  | cons y ys ih =>
    exact ih _ (max_le ha (h y (List.mem_cons_self y ys))) fun x hx =>
      h x (List.mem_cons_of_mem y hx)

theorem maxFrozenId_eq (db : DB) :
    maxFrozenId db = (db.segments.map (fun s => s.id)).foldl max (-1) := by
  rw [maxFrozenId, List.foldl_map]

theorem mem_le_maxFrozenId (db : DB) (s : segment) (hs : s ∈ db.segments) :
    s.id ≤ maxFrozenId db := by
  rw [maxFrozenId_eq]
  exact foldl_max_mem _ _ _ (List.mem_map_of_mem _ hs)

theorem rotate_next_eq (db : DB) (hinv : SegInv db) :
    (match db.segments.getLast? with
     | none => (0 : Int)
     | some s => s.id + 1) = maxFrozenId db + 1 := by
  rcases List.eq_nil_or_concat db.segments with h | ⟨l, s, h⟩
  · rw [maxFrozenId_eq, h]
    norm_num
  · rw [List.concat_eq_append] at h
    have hmax : maxFrozenId db = s.id := by
      rw [maxFrozenId_eq, h, List.map_append, List.foldl_append]
      have hp : ((l.map (fun s => s.id)) ++ [s.id]).Pairwise (· < ·) := by
        have hq := hinv.1
        rw [h, List.map_append] at hq
        exact hq
      have hall : ∀ x ∈ l.map (fun s => s.id), x ≤ s.id := fun x hx =>
        le_of_lt ((List.pairwise_append.mp hp).2.2 x hx s.id (List.mem_singleton_self _))
      have hs0 : (0 : Int) ≤ s.id := hinv.2 s (by rw [h]; exact List.mem_append_right _ (List.mem_singleton_self _))
      have hle : (l.map (fun s => s.id)).foldl max (-1) ≤ s.id :=
        foldl_max_le_of _ _ _ (by omega) hall
      simp only [List.map_cons, List.map_nil, List.foldl_cons, List.foldl_nil]
      exact max_eq_right hle
    rw [h, List.getLast?_append, hmax]
    rfl

theorem doPut_segments (env : List Char) (k v : List Nat) (db : DB) (hinv : SegInv db) :
    (doPut env k v db).segments = db.segments ∨
    ∃ sz dat, (doPut env k v db).segments =
      db.segments ++ [{ id := maxFrozenId db + 1, size := sz, data := dat }] := by
  simp only [doPut]
  split
  · right
    refine ⟨db.active.size + (entry.Encode ⟨k, v⟩).length,
      db.active.data ++ entry.Encode ⟨k, v⟩, ?_⟩
    simp only [rotateActive]
    rw [rotate_next_eq db hinv]
  · left
    rfl

theorem merge_segments (db : DB) :
    (merge db).1.segments = db.segments ∨
    ∃ sz dat, (merge db).1.segments =
      [{ id := maxFrozenId db + 1, size := sz, data := dat }] := by
  unfold merge
  split
  · left
    rfl
  · rcases hmc : mergeCopy db.segments.reverse [] [] with ⟨⟨dst, seen⟩, oe⟩
    cases oe with
    | none =>
      rcases hs1 : scanSegment { id := maxFrozenId db + 1, size := dst.length, data := dst } [] with ⟨idx1, oe1⟩
      cases oe1 with
      | none =>
        rcases hs2 : scanSegment db.active idx1 with ⟨idx2, oe2⟩
        right
        refine ⟨dst.length, dst, ?_⟩
        simp only [hmc, hs1, hs2]
      | some e1 =>
        right
        refine ⟨dst.length, dst, ?_⟩
        simp only [hmc, hs1]
    | some e =>
      left
      simp only [hmc]

theorem step_segments (db : DB) (op : Op) (hinv : SegInv db) :
    (step db op).segments = db.segments ∨
    (∃ sz dat, (step db op).segments =
      db.segments ++ [{ id := maxFrozenId db + 1, size := sz, data := dat }]) ∨
    (∃ sz dat, (step db op).segments =
      [{ id := maxFrozenId db + 1, size := sz, data := dat }]) := by
  cases op with
  | putOp env k v =>
    rcases doPut_segments env k v db hinv with h | ⟨sz, dat, h⟩
    · exact Or.inl h
    · exact Or.inr (Or.inl ⟨sz, dat, h⟩)
  | mergeOp =>
    rcases merge_segments db with h | ⟨sz, dat, h⟩
    · exact Or.inl h
    · exact Or.inr (Or.inr ⟨sz, dat, h⟩)

theorem maxFrozenId_ge (db : DB) : (-1 : Int) ≤ maxFrozenId db := by
  rw [maxFrozenId_eq]
  exact foldl_max_init _ _

theorem step_SegInv (db : DB) (op : Op) (hinv : SegInv db) : SegInv (step db op) := by
  have hm1 := maxFrozenId_ge db
  rcases step_segments db op hinv with h | ⟨sz, dat, h⟩ | ⟨sz, dat, h⟩
  · exact ⟨by rw [h]; exact hinv.1, fun s hs => hinv.2 s (h ▸ hs)⟩
  · constructor
    · rw [h, List.map_append, List.pairwise_append]
      refine ⟨hinv.1, by simp, ?_⟩
      intro a ha b hb
      simp only [List.map_cons, List.map_nil, List.mem_singleton] at hb
      subst hb
      rcases List.mem_map.mp ha with ⟨s, hs, rfl⟩
      have := mem_le_maxFrozenId db s hs
      omega
    · intro s hs
      rw [h] at hs
      rcases List.mem_append.mp hs with h1 | h1
      · exact hinv.2 s h1
      · have h2 : s = { id := maxFrozenId db + 1, size := sz, data := dat } := by
          simpa using h1
        subst h2
        show (0:Int) ≤ maxFrozenId db + 1
        omega
  · constructor
    · rw [h]
      simp
    · intro s hs
      rw [h] at hs
      have h2 : s = { id := maxFrozenId db + 1, size := sz, data := dat } := by
        simpa using hs
      subst h2
      show (0:Int) ≤ maxFrozenId db + 1
      omega

theorem step_maxFrozen_mono (db : DB) (op : Op) (hinv : SegInv db) :
    maxFrozenId db ≤ maxFrozenId (step db op) := by
  have hm1 := maxFrozenId_ge db
  rcases step_segments db op hinv with h | ⟨sz, dat, h⟩ | ⟨sz, dat, h⟩
  · rw [maxFrozenId_eq (step db op), h, ← maxFrozenId_eq]
  · rw [maxFrozenId_eq (step db op), h, List.map_append, List.foldl_append, ← maxFrozenId_eq]
    simp only [List.map_cons, List.map_nil, List.foldl_cons, List.foldl_nil]
    exact le_max_left _ _
  · rw [maxFrozenId_eq (step db op), h]
    simp only [List.map_cons, List.map_nil, List.foldl_cons, List.foldl_nil]
    omega

theorem newSegIds_spec (db : DB) (op : Op) (hinv : SegInv db) (n : Int)
    (hn : n ∈ newSegIds db op) :
    n = maxFrozenId db + 1 ∧ maxFrozenId (step db op) = maxFrozenId db + 1 := by
  have hm1 := maxFrozenId_ge db
  rw [newSegIds] at hn
  rcases step_segments db op hinv with h | ⟨sz, dat, h⟩ | ⟨sz, dat, h⟩
  · exfalso
    rw [h] at hn
    rcases List.mem_filter.mp hn with ⟨hmem, hdec⟩
    rw [decide_eq_true_eq] at hdec
    exact hdec hmem
  · rw [h, List.map_append] at hn
    rcases List.mem_filter.mp hn with ⟨hmem, hdec⟩
    rw [decide_eq_true_eq] at hdec
    rcases List.mem_append.mp hmem with h1 | h1
    · exact absurd h1 hdec
    · have hn1 : n = maxFrozenId db + 1 := by simpa using h1
      refine ⟨hn1, ?_⟩
      rw [maxFrozenId_eq (step db op), h, List.map_append, List.foldl_append, ← maxFrozenId_eq]
      simp only [List.map_cons, List.map_nil, List.foldl_cons, List.foldl_nil]
      exact max_eq_right (by omega)
  · rw [h] at hn
    rcases List.mem_filter.mp hn with ⟨hmem, hdec⟩
    have hn1 : n = maxFrozenId db + 1 := by simpa using hmem
    refine ⟨hn1, ?_⟩
    rw [maxFrozenId_eq (step db op), h]
    simp only [List.map_cons, List.map_nil, List.foldl_cons, List.foldl_nil]
    exact max_eq_right (by omega)

theorem run_SegInv (db : DB) (ops : List Op) (hinv : SegInv db) : SegInv (run db ops) := by
  induction ops generalizing db with
  | nil => exact hinv
  | cons op rest ih => exact ih (step db op) (step_SegInv db op hinv)

theorem run_maxFrozen_mono (db : DB) (ops : List Op) (hinv : SegInv db) :
    maxFrozenId db ≤ maxFrozenId (run db ops) := by
  induction ops generalizing db with
  | nil => exact le_refl _
  | cons op rest ih =>
    exact le_trans (step_maxFrozen_mono db op hinv) (ih (step db op) (step_SegInv db op hinv))

theorem assigned_le_max (db : DB) (ops : List Op) (hinv : SegInv db) :
    ∀ m ∈ assignedIds db ops, m ≤ maxFrozenId (run db ops) := by
  induction ops generalizing db with
  | nil =>
    intro m hm
    cases hm
  | cons op rest ih =>
    intro m hm
    rw [assignedIds] at hm
    have hrun : run db (op :: rest) = run (step db op) rest := rfl
    rcases List.mem_append.mp hm with h | h
    · have hspec := newSegIds_spec db op hinv m h
      have hmono := run_maxFrozen_mono (step db op) rest (step_SegInv db op hinv)
      rw [hrun]
      omega
    · rw [hrun]
      exact ih (step db op) (step_SegInv db op hinv) m h

/-- C6 (confirmed): every segment id assigned by a rotation or compaction in
any run from a fresh store is `max_frozen_id + 1` (0 when no frozen segment
exists) and is strictly greater than every previously assigned id, including
runs in which compaction has replaced the frozen list. -/
theorem c6_rotation_monotone (ops1 : List Op) (op : Op) (n : Int)
    (hn : n ∈ newSegIds (run initDB ops1) op) :
    (∀ m ∈ assignedIds initDB ops1, m < n) ∧
    n = (if (run initDB ops1).segments.isEmpty then 0
         else maxFrozenId (run initDB ops1) + 1) := by
  have hinv0 : SegInv initDB := ⟨List.Pairwise.nil, by intro s hs; cases hs⟩
  have hinv := run_SegInv initDB ops1 hinv0
  have hspec := newSegIds_spec (run initDB ops1) op hinv n hn
  constructor
  · intro m hm
    have hle := assigned_le_max initDB ops1 hinv0 m hm
    omega
  · by_cases he : (run initDB ops1).segments.isEmpty
    · rw [if_pos he]
      have hseg : (run initDB ops1).segments = [] := List.isEmpty_iff.mp he
      have hmax : maxFrozenId (run initDB ops1) = -1 := by
        rw [maxFrozenId_eq, hseg]
        rfl
      omega
    · rw [if_neg he]
      exact hspec.1

theorem c6_rotation_monotone_witness :
    (∀ m ∈ assignedIds initDB [Op.putOp ['1','0'] [97] [49]], m < 1) ∧
    (1 : Int) = (if (run initDB [Op.putOp ['1','0'] [97] [49]]).segments.isEmpty then 0
         else maxFrozenId (run initDB [Op.putOp ['1','0'] [97] [49]]) + 1) :=
  c6_rotation_monotone [Op.putOp ['1','0'] [97] [49]] (Op.putOp [] [98] [50]) 1 (by decide)

theorem encAll_append (a b : List Rec) : encAll (a ++ b) = encAll a ++ encAll b := by
  induction a with
  | nil => rfl
  | cons r rs ih =>
    simp only [List.cons_append, encAll, List.append_eq, ih, List.append_assoc]

theorem encRec_length (r : Rec) : (encRec r).length = 8 + r.1.length + r.2.length :=
  encode_length r.1 r.2

theorem scanL_append (idx : Index) (a b : List LocRec) :
    scanL (scanL idx a) b = scanL idx (a ++ b) := by
  induction a generalizing idx with
  | nil => rfl
  | cons lr rest ih => simp only [List.cons_append, List.append_eq, scanL, ih]

theorem dfr_nil : entry.DecodeFromReader [] = .err .eof := by decide

theorem scanLoop_nil (sid : Int) (f : Nat) (off : Nat) (idx : Index) :
    scanLoop sid f [] off idx = (idx, none) := by
  cases f with
  | zero => rfl
  | succ f1 =>
    simp only [scanLoop, dfr_nil]

theorem scanLoop_encAll (rs : List Rec) (sid : Int) (off : Nat) (idx : Index) (f : Nat)
    (hb : ∀ r ∈ rs, BoundedRec r) (hf : (encAll rs).length ≤ f) :
    scanLoop sid f (encAll rs) off idx = (scanL idx (locate sid off rs), none) := by
  induction rs generalizing f off idx with
  | nil =>
    simp only [encAll, locate, scanL]
    exact scanLoop_nil sid f off idx
  | cons r rest ih =>
    have hbr : BoundedRec r := hb r (List.mem_cons_self r rest)
    have hlen : (encAll (r :: rest)).length = (encRec r).length + (encAll rest).length := by
      simp only [encAll, List.length_append]
    have hrl : (encRec r).length = 8 + r.1.length + r.2.length := encRec_length r
    cases f with
    | zero =>
      exfalso
      rw [hlen] at hf
      omega
    | succ f1 =>
      have hdec : entry.DecodeFromReader (encAll (r :: rest)) =
          .ok ⟨r.1, r.2⟩ (8 + r.1.length + r.2.length) (encAll rest) := by
        have : encAll (r :: rest) = entry.Encode ⟨r.1, r.2⟩ ++ encAll rest := by
          simp only [encAll, encRec]
        rw [this]
        exact decodeFromReader_encode r.1 r.2 (encAll rest) hbr
      simp only [scanLoop, hdec]
      have hf1 : (encAll rest).length ≤ f1 := by
        rw [hlen] at hf
        omega
      have ihr := ih (off + (8 + r.1.length + r.2.length)) (idxPut idx r.1 ⟨sid, off⟩) f1
        (fun x hx => hb x (List.mem_cons_of_mem r hx)) hf1
      rw [ihr]
      simp only [locate, scanL, encRec_length]

theorem scanSegment_chunk (sid : Int) (c : List Rec) (idx : Index)
    (hb : ∀ r ∈ c, BoundedRec r) :
    scanSegment { id := sid, size := (encAll c).length, data := encAll c } idx =
      (scanL idx (locate sid 0 c), none) := by
  simp only [scanSegment]
  exact scanLoop_encAll c sid 0 idx (encAll c).length hb (le_refl _)

theorem scanAll_chunks (chunks : List (List Rec)) (i : Nat) (act : List Rec) (idx : Index)
    (hb : ∀ c ∈ chunks, ∀ r ∈ c, BoundedRec r) (hba : ∀ r ∈ act, BoundedRec r) :
    scanAll (segsOf i chunks ++
        [{ id := -1, size := (encAll act).length, data := encAll act }]) idx =
      (scanL idx (locChunks i chunks ++ locate (-1) 0 act), none) := by
  induction chunks generalizing i idx with
  | nil =>
    simp only [segsOf, List.nil_append, scanAll, locChunks]
    simp only [scanSegment_chunk (-1) act idx hba, scanAll]
  | cons c cs ih =>
    simp only [segsOf, List.cons_append, scanAll, locChunks]
    simp only [scanSegment_chunk (i : Int) c idx (hb c (List.mem_cons_self c cs)),
      List.append_eq]
    rw [ih (i + 1) (scanL idx (locate (i : Int) 0 c))
      (fun c2 hc2 => hb c2 (List.mem_cons_of_mem c hc2))]
    rw [scanL_append, List.append_assoc]

theorem ReprDB_init : ReprDB initDB [] [] := ⟨rfl, rfl⟩

theorem segsOf_append_one (i : Nat) (cs : List (List Rec)) (c : List Rec) :
    segsOf i (cs ++ [c]) =
      segsOf i cs ++ [segment.mk (i + cs.length : Nat) (encAll c).length (encAll c)] := by
  induction cs generalizing i with
  | nil =>
    simp only [List.nil_append, segsOf, List.length_nil, Nat.add_zero]
  | cons c2 cs2 ih =>
    simp only [List.cons_append, List.append_eq, segsOf, ih (i + 1), List.length_cons]
    have h2 : i + 1 + cs2.length = i + (cs2.length + 1) := by omega
    rw [h2]

theorem segsOf_getLast (i : Nat) (chunks : List (List Rec)) :
    (match (segsOf i chunks).getLast? with
     | none => (0 : Int)
     | some s => s.id + 1) = ((i + chunks.length : Nat) : Int) ∨
    (chunks = [] ∧ (segsOf i chunks).getLast? = none) := by
  rcases List.eq_nil_or_concat chunks with h | ⟨cs, c, h⟩
  · right
    subst h
    exact ⟨rfl, rfl⟩
  · left
    rw [List.concat_eq_append] at h
    subst h
    rw [segsOf_append_one, List.getLast?_append]
    simp only [List.getLast?_singleton, Option.or_some]
    rw [List.length_append, List.length_cons, List.length_nil]
    push_cast
    ring

theorem doPut_repr (env : List Char) (k v : List Nat) (db : DB) (chunks : List (List Rec))
    (act : List Rec) (hr : ReprDB db chunks act) :
    ReprDB (doPut env k v db) chunks (act ++ [(k, v)]) ∨
    ReprDB (doPut env k v db) (chunks ++ [act ++ [(k, v)]]) [] := by
  have hact : encAll (act ++ [(k, v)]) = encAll act ++ entry.Encode ⟨k, v⟩ := by
    rw [encAll_append]
    simp only [encAll, encRec, List.append_nil]
  have hlen : (encAll (act ++ [(k, v)])).length =
      (encAll act).length + (entry.Encode ⟨k, v⟩).length := by
    rw [hact, List.length_append]
  simp only [doPut, hr.1, hr.2]
  split
  · right
    constructor
    · simp only [rotateActive]
      rw [segsOf_append_one]
      rcases segsOf_getLast 0 chunks with h | ⟨hc, hnone⟩
      · rw [h]
        simp only [Nat.zero_add]
        rw [hlen, hact]
      · subst hc
        rw [hnone]
        simp only [segsOf, List.nil_append, List.length_nil, Nat.zero_add]
        rw [hlen, hact]
        norm_num
    · simp only [rotateActive]
      rfl
  · left
    constructor
    · rfl
    · simp only []
      rw [hlen, hact]

theorem catChunks_append_one (cs : List (List Rec)) (c : List Rec) :
    catChunks (cs ++ [c]) = catChunks cs ++ c := by
  induction cs with
  | nil =>
    simp only [List.nil_append, catChunks, List.append_nil]
  | cons c2 cs2 ih =>
    simp only [List.cons_append, catChunks, List.append_eq, ih, List.append_assoc]

theorem run_repr (ops : List Op) (db : DB) (chunks : List (List Rec)) (act : List Rec)
    (hp : putsOnly ops) (hr : ReprDB db chunks act) :
    ∃ chunks2 act2, ReprDB (run db ops) chunks2 act2 ∧
      catChunks chunks2 ++ act2 = (catChunks chunks ++ act) ++ recsOfOps ops := by
  induction ops generalizing db chunks act with
  | nil =>
    exact ⟨chunks, act, hr, by simp [recsOfOps]⟩
  | cons op rest ih =>
    cases op with
    | mergeOp =>
      exact absurd rfl (hp Op.mergeOp (List.mem_cons_self _ _))
    | putOp env k v =>
      have hrun : run db (Op.putOp env k v :: rest) = run (doPut env k v db) rest := rfl
      have hrecs : recsOfOps (Op.putOp env k v :: rest) = (k, v) :: recsOfOps rest := rfl
      have hp2 : putsOnly rest := fun o ho => hp o (List.mem_cons_of_mem _ ho)
      rcases doPut_repr env k v db chunks act hr with h2 | h2
      · rcases ih (doPut env k v db) chunks (act ++ [(k, v)]) hp2 h2 with ⟨c2, a2, hq, he⟩
        refine ⟨c2, a2, hq, ?_⟩
        rw [he, hrecs]
        simp [List.append_assoc]
      · rcases ih (doPut env k v db) (chunks ++ [act ++ [(k, v)]]) [] hp2 h2 with ⟨c2, a2, hq, he⟩
        refine ⟨c2, a2, hq, ?_⟩
        rw [he, hrecs, catChunks_append_one]
        simp [List.append_assoc]

theorem insertById_sorted (x : Int × List Nat) (l : List (Int × List Nat))
    (h : ∀ y ∈ l, x.1 ≤ y.1) : insertById x l = x :: l := by
  cases l with
  | nil => rfl
  | cons y rest =>
    simp only [insertById]
    rw [if_pos (h y (List.mem_cons_self y rest))]

theorem sortById_sorted (l : List (Int × List Nat))
    (h : l.Pairwise (fun a b => a.1 < b.1)) : sortById l = l := by
  induction l with
  | nil => rfl
  | cons x rest ih =>
    simp only [sortById]
    rw [ih (List.Pairwise.sublist (List.sublist_cons_self x rest) h)]
    exact insertById_sorted x rest fun y hy =>
      le_of_lt ((List.pairwise_cons.mp h).1 y hy)

theorem segsOf_id_ge (i : Nat) (chunks : List (List Rec)) (s : segment)
    (hs : s ∈ segsOf i chunks) : (i : Int) ≤ s.id := by
  induction chunks generalizing i with
  | nil => cases hs
  | cons c cs ih =>
    rcases List.mem_cons.mp hs with h | h
    · subst h
      exact le_refl _
    · have := ih (i + 1) h
      push_cast at this ⊢
      omega

theorem segsOf_pairs_sorted (i : Nat) (chunks : List (List Rec)) :
    ((segsOf i chunks).map (fun s => (s.id, s.data))).Pairwise (fun a b => a.1 < b.1) := by
  induction chunks generalizing i with
  | nil => exact List.Pairwise.nil
  | cons c cs ih =>
    simp only [segsOf, List.map_cons, List.pairwise_cons]
    refine ⟨?_, ih (i + 1)⟩
    intro p hp
    rcases List.mem_map.mp hp with ⟨s, hs, rfl⟩
    have := segsOf_id_ge (i + 1) cs s hs
    simp only []
    push_cast at this ⊢
    omega

theorem segsOf_roundtrip (i : Nat) (chunks : List (List Rec)) :
    ((segsOf i chunks).map (fun s => (s.id, s.data))).map
        (fun p => segment.mk p.1 p.2.length p.2) = segsOf i chunks := by
  induction chunks generalizing i with
  | nil => rfl
  | cons c cs ih =>
    simp only [segsOf, List.map_cons, ih (i + 1)]

theorem loadSegments_repr (db : DB) (chunks : List (List Rec)) (act : List Rec)
    (hr : ReprDB db chunks act) :
    loadSegments (dirOf db) =
      { segments := segsOf 0 chunks
        active := { id := -1, size := (encAll act).length, data := encAll act }
        index := []
        maxSegmentSize := 10485760 } := by
  simp only [loadSegments, dirOf, hr.1, hr.2]
  rw [sortById_sorted _ (segsOf_pairs_sorted 0 chunks)]
  rw [segsOf_roundtrip]

theorem Open_repr (db : DB) (chunks : List (List Rec)) (act : List Rec)
    (hr : ReprDB db chunks act)
    (hb : ∀ c ∈ chunks, ∀ r ∈ c, BoundedRec r) (hba : ∀ r ∈ act, BoundedRec r) :
    Open (dirOf db) = .ok
      { segments := segsOf 0 chunks
        active := { id := -1, size := (encAll act).length, data := encAll act }
        index := scanL [] (locChunks 0 chunks ++ locate (-1) 0 act)
        maxSegmentSize := 10485760 } := by
  simp only [Open, loadSegments_repr db chunks act hr]
  simp only [scanAll_chunks chunks 0 act [] hb hba]

theorem idxFind_nil (k : List Nat) : idxFind [] k = none := rfl

theorem idxFind_idxPut (idx : Index) (k : List Nat) (p : position) (k2 : List Nat) :
    idxFind (idxPut idx k p) k2 = if k2 = k then some p else idxFind idx k2 := by
  by_cases h : k2 = k
  · subst h
    rw [if_pos rfl]
    simp [idxFind, idxPut]
  · rw [if_neg h]
    simp only [idxFind, idxPut, List.find?]
    have hne : ((k, p).1 == k2) = false := by
      simp only [beq_eq_false_iff_ne, ne_eq]
      intro hc
      exact h hc.symm
    rw [hne]
    induction idx with
    | nil => rfl
    | cons kv rest ih =>
      by_cases hk : kv.1 = k
      · have hf : (!(kv.1 == k)) = false := by simp [hk]
        have hk2 : (kv.1 == k2) = false := by
          simp only [beq_eq_false_iff_ne, ne_eq, hk]
          intro hc
          exact h hc.symm
        simp only [List.filter_cons, hf, List.find?, hk2]
        exact ih
      · have hf : (!(kv.1 == k)) = true := by simp [hk]
        simp only [List.filter_cons, hf, List.find?]
        cases hkv2 : kv.1 == k2 with
        | true => rfl
        | false => exact ih

theorem idxFind_scanL (lrs : List LocRec) (idx : Index) (k : List Nat) :
    idxFind (scanL idx lrs) k =
      (match lastLocR lrs k with
       | some pr => some pr.1
       | none => idxFind idx k) := by
  induction lrs generalizing idx with
  | nil => rfl
  | cons lr rest ih =>
    simp only [scanL, lastLocR, ih]
    cases lastLocR rest k with
    | some pr => rfl
    | none =>
      simp only [idxFind_idxPut]
      by_cases h : lr.2.2.1 = k
      · rw [if_pos h, if_pos h.symm]
      · rw [if_neg h, if_neg fun hc => h hc.symm]

theorem lastLocR_mem (lrs : List LocRec) (k : List Nat) (p : position) (r : Rec)
    (h : lastLocR lrs k = some (p, r)) :
    (p.segID, p.offset, r) ∈ lrs ∧ r.1 = k := by
  induction lrs with
  | nil => cases h
  | cons lr rest ih =>
    rw [lastLocR] at h
    cases hrest : lastLocR rest k with
    | some pr =>
      rw [hrest] at h
      have := ih (hrest.trans (congrArg some (Option.some.inj h)))
      exact ⟨List.mem_cons_of_mem lr this.1, this.2⟩
    | none =>
      rw [hrest] at h
      by_cases hk : lr.2.2.1 = k
      · rw [if_pos hk] at h
        have h2 := Option.some.inj h
        have hp : p = ⟨lr.1, lr.2.1⟩ := (congrArg Prod.fst h2).symm
        have hr : r = lr.2.2 := (congrArg Prod.snd h2).symm
        subst hp
        subst hr
        exact ⟨List.mem_cons_self lr rest, hk⟩
      · rw [if_neg hk] at h
        cases h

theorem lastLocR_lastPut (lrs : List LocRec) (k : List Nat) :
    (lastLocR lrs k).map (fun pr => pr.2.2) =
      lastPut (lrs.map (fun lr => lr.2.2)) k := by
  induction lrs with
  | nil => rfl
  | cons lr rest ih =>
    simp only [lastLocR, List.map_cons, lastPut, ← ih]
    cases lastLocR rest k with
    | some pr => rfl
    | none =>
      simp only [Option.map_none]
      by_cases hk : lr.2.2.1 = k
      · rw [if_pos hk, if_pos hk]
        rfl
      · rw [if_neg hk, if_neg hk]
        rfl

theorem locate_map_recs (sid : Int) (base : Nat) (rs : List Rec) :
    (locate sid base rs).map (fun lr => lr.2.2) = rs := by
  induction rs generalizing base with
  | nil => rfl
  | cons r rest ih =>
    simp only [locate, List.map_cons, ih]

theorem locChunks_map_recs (i : Nat) (chunks : List (List Rec)) :
    (locChunks i chunks).map (fun lr => lr.2.2) = catChunks chunks := by
  induction chunks generalizing i with
  | nil => rfl
  | cons c cs ih =>
    simp only [locChunks, List.map_append, locate_map_recs, ih, catChunks]

theorem locate_mem_split (sid : Int) (base : Nat) (rs : List Rec) (lr : LocRec)
    (hlr : lr ∈ locate sid base rs) :
    lr.1 = sid ∧ lr.2.2 ∈ rs ∧
    ∃ pre post, encAll rs = pre ++ encRec lr.2.2 ++ post ∧ base + pre.length = lr.2.1 := by
  induction rs generalizing base with
  | nil => cases hlr
  | cons r rest ih =>
    rcases List.mem_cons.mp hlr with h | h
    · subst h
      refine ⟨rfl, List.mem_cons_self _ _, [], encAll rest, ?_, by simp⟩
      simp only [encAll, List.nil_append]
    · rcases ih (base + (encRec r).length) h with ⟨h1, h2, pre, post, h3, h4⟩
      refine ⟨h1, List.mem_cons_of_mem r h2, encRec r ++ pre, post, ?_, ?_⟩
      · simp only [encAll, h3, List.append_assoc]
      · rw [List.length_append]
        omega

theorem mem_catChunks (chunks : List (List Rec)) (c : List Rec) (r : Rec)
    (hc : c ∈ chunks) (hr : r ∈ c) : r ∈ catChunks chunks := by
  induction chunks with
  | nil => cases hc
  | cons c2 cs ih =>
    rcases List.mem_cons.mp hc with h | h
    · subst h
      exact List.mem_append_left _ hr
    · exact List.mem_append_right _ (ih h)

theorem readValueAt_record (s : segment) (pre post k v : List Nat)
    (hdata : s.data = pre ++ (entry.Encode ⟨k, v⟩ ++ post))
    (hb : 8 + k.length + v.length < 4294967296) :
    readValueAt s pre.length = .ok v := by
  have hel := encode_length k v
  have hlen : s.data.length = pre.length + ((8 + k.length + v.length) + post.length) := by
    rw [hdata, List.length_append, List.length_append, hel]
  have hdrop : s.data.drop pre.length = entry.Encode ⟨k, v⟩ ++ post := by
    rw [hdata, List.drop_left]
  have h8l : (le32enc k.length ++ le32enc v.length).length = 8 := by simp [le32enc]
  have henc : entry.Encode ⟨k, v⟩ ++ post =
      (le32enc k.length ++ le32enc v.length) ++ ((k ++ v) ++ post) := by
    rw [encode_def]
    simp [List.append_assoc]
  have hhdr : (s.data.drop pre.length).take 8 = le32enc k.length ++ le32enc v.length := by
    rw [hdrop, henc, ← h8l, List.take_left]
  have hbuf : (s.data.drop pre.length).take (8 + k.length + v.length) =
      entry.Encode ⟨k, v⟩ := by
    rw [hdrop, ← hel, List.take_left]
  have hk : k.length % 4294967296 = k.length := Nat.mod_eq_of_lt (by omega)
  have hv2 : v.length % 4294967296 = v.length := Nat.mod_eq_of_lt (by omega)
  have hu : u32 (8 + k.length + v.length) = 8 + k.length + v.length :=
    Nat.mod_eq_of_lt (by omega)
  simp only [readValueAt, hhdr, hdr8_take, hdr8_drop, le32dec_le32enc, hk, hv2, hu]
  rw [if_neg (by omega), if_neg (by omega), if_neg (by
    rintro ⟨h1, h2⟩
    omega)]
  rw [hbuf, decode_encode k v hb]

theorem segFor_segsOf (chunks : List (List Rec)) (i j : Nat) (c : List Rec)
    (hj : chunks.get? j = some c) :
    List.find? (fun s => s.id == ((i + j : Nat) : Int)) (segsOf i chunks) =
      some (segment.mk ((i + j : Nat) : Int) (encAll c).length (encAll c)) := by
  induction chunks generalizing i j with
  | nil => cases hj
  | cons c2 cs ih =>
    cases j with
    | zero =>
      have hc : c2 = c := by
        simpa using hj
      subst hc
      simp only [segsOf, List.find?]
      have ht : ((segment.mk (i : Int) (encAll c2).length (encAll c2)).id ==
          ((i + 0 : Nat) : Int)) = true := by
        simp
      rw [ht]
      simp
    | succ j2 =>
      have hf : ((segment.mk (i : Int) (encAll c2).length (encAll c2)).id ==
          ((i + (j2 + 1) : Nat) : Int)) = false := by
        simp only [beq_eq_false_iff_ne, ne_eq]
        intro hc
        have : (i : Int) = ((i + (j2 + 1) : Nat) : Int) := hc
        push_cast at this
        omega
      simp only [segsOf, List.find?, hf]
      have hj2 : cs.get? j2 = some c := hj
      have hfound := ih (i + 1) j2 hj2
      have harith : ((i + 1 + j2 : Nat) : Int) = ((i + (j2 + 1) : Nat) : Int) := by
        push_cast
        ring
      rw [harith] at hfound
      exact hfound

theorem locChunks_mem_split (i : Nat) (chunks : List (List Rec)) (lr : LocRec)
    (hlr : lr ∈ locChunks i chunks) :
    ∃ j c, chunks.get? j = some c ∧ lr.1 = ((i + j : Nat) : Int) ∧ lr.2.2 ∈ c ∧
      ∃ pre post, encAll c = pre ++ encRec lr.2.2 ++ post ∧ pre.length = lr.2.1 := by
  induction chunks generalizing i with
  | nil => cases hlr
  | cons c cs ih =>
    rcases List.mem_append.mp hlr with h | h
    · rcases locate_mem_split (i : Int) 0 c lr h with ⟨h1, h2, pre, post, h3, h4⟩
      refine ⟨0, c, rfl, by rw [h1]; norm_num, h2, pre, post, h3, by omega⟩
    · rcases ih (i + 1) h with ⟨j, c2, hg, hid, hmem, pre, post, h3, h4⟩
      refine ⟨j + 1, c2, hg, ?_, hmem, pre, post, h3, h4⟩
      rw [hid]
      push_cast
      ring

/-- C3 (amended): for every directory produced by a crash-free sequence of
successful `Put`s whose records fit the u32 header arithmetic, `Open`
succeeds — the index is rebuilt by scanning the frozen segments in
ascending id order and then the active segment, last write winning — and
`Get` of every written key returns the value of its last `Put`, while an
unwritten key reports `NotFound`. -/
theorem c3_recovery (ops : List Op) (hp : putsOnly ops)
    (hb : ∀ r ∈ recsOfOps ops, BoundedRec r) (k : List Nat) :
    ∃ db2, Open (dirOf (run initDB ops)) = .ok db2 ∧
      DB.Get db2 k = (match lastPut (recsOfOps ops) k with
        | some v => .ok v
        | none => .err .notFound) := by
  rcases run_repr ops initDB [] [] hp ReprDB_init with ⟨chunks, act, hr, he⟩
  have hrecs : catChunks chunks ++ act = recsOfOps ops := by
    simpa [catChunks] using he
  have hbc : ∀ c ∈ chunks, ∀ r ∈ c, BoundedRec r := by
    intro c hc r hrr
    exact hb r (by rw [← hrecs]; exact List.mem_append_left _ (mem_catChunks chunks c r hc hrr))
  have hba : ∀ r ∈ act, BoundedRec r := fun r hrr =>
    hb r (by rw [← hrecs]; exact List.mem_append_right _ hrr)
  refine ⟨_, Open_repr (run initDB ops) chunks act hr hbc hba, ?_⟩
  have hmaprecs : (locChunks 0 chunks ++ locate (-1) 0 act).map (fun lr => lr.2.2) =
      recsOfOps ops := by
    rw [List.map_append, locChunks_map_recs, locate_map_recs, hrecs]
  cases hll : lastLocR (locChunks 0 chunks ++ locate (-1) 0 act) k with
  | none =>
    have hlp : lastPut (recsOfOps ops) k = none := by
      have h2 := lastLocR_lastPut (locChunks 0 chunks ++ locate (-1) 0 act) k
      rw [hll, hmaprecs] at h2
      exact h2.symm
    have hf2 : idxFind (scanL [] (locChunks 0 chunks ++ locate (-1) 0 act)) k = none := by
      rw [idxFind_scanL, hll]
      rfl
    rw [hlp]
    simp only [DB.Get, hf2]
  | some pr =>
    rcases pr with ⟨p, r⟩
    have hmem := lastLocR_mem (locChunks 0 chunks ++ locate (-1) 0 act) k p r hll
    have hlp : lastPut (recsOfOps ops) k = some r.2 := by
      have h2 := lastLocR_lastPut (locChunks 0 chunks ++ locate (-1) 0 act) k
      rw [hll, hmaprecs] at h2
      exact h2.symm
    have hf2 : idxFind (scanL [] (locChunks 0 chunks ++ locate (-1) 0 act)) k = some p := by
      rw [idxFind_scanL, hll]
    rw [hlp]
    simp only [DB.Get, hf2]
    rcases List.mem_append.mp hmem.1 with hin | hin
    · rcases locChunks_mem_split 0 chunks (p.segID, p.offset, r) hin with
        ⟨j, c, hg, hid, hrc, pre, post, hsplit, hoff⟩
      dsimp only at hid hrc hsplit hoff
      have hid2 : p.segID = (j : Int) := by
        rw [hid]
        norm_num
      have hne : ¬ ((p.segID == (-1 : Int)) = true) := by
        simp only [beq_iff_eq, hid2]
        intro hc
        omega
      rw [if_neg hne]
      simp only [segFor]
      have hsf := segFor_segsOf chunks 0 j c hg
      have hz : ((0 + j : Nat) : Int) = (j : Int) := by norm_num
      rw [hz] at hsf
      rw [hid2]
      simp only [hsf]
      have hdata : (segment.mk (j : Int) (encAll c).length (encAll c)).data =
          pre ++ (entry.Encode ⟨r.1, r.2⟩ ++ post) := by
        simp only []
        rw [hsplit, List.append_assoc]
        rfl
      have hbr : BoundedRec r := hbc c (List.get?_mem hg) r hrc
      have hread := readValueAt_record (segment.mk (j : Int) (encAll c).length (encAll c))
        pre post r.1 r.2 hdata hbr
      rw [hoff] at hread
      exact hread
    · rcases locate_mem_split (-1) 0 act (p.segID, p.offset, r) hin with
        ⟨h1, h2, pre, post, h3, h4⟩
      dsimp only at h1 h2 h3 h4
      have hne : (p.segID == (-1 : Int)) = true := by
        simp [h1]
      rw [if_pos hne]
      have hdata : ({ id := -1, size := (encAll act).length, data := encAll act } :
          segment).data = pre ++ (entry.Encode ⟨r.1, r.2⟩ ++ post) := by
        simp only []
        rw [h3, List.append_assoc]
        rfl
      have hbr : BoundedRec r := hba r h2
      have hread := readValueAt_record
        { id := -1, size := (encAll act).length, data := encAll act }
        pre post r.1 r.2 hdata hbr
      have hoff : pre.length = p.offset := by omega
      rw [hoff] at hread
      exact hread

theorem c3_recovery_witness :
    ∃ db2, Open (dirOf (run initDB [Op.putOp [] [97] [49]])) = .ok db2 ∧
      DB.Get db2 [97] = .ok [49] := by
  have h := c3_recovery [Op.putOp [] [97] [49]] (by decide) (by decide) [97]
  have hl : lastPut (recsOfOps [Op.putOp [] [97] [49]]) [97] = some [49] := by decide
  rw [hl] at h
  exact h

theorem scanLoop_step (sid : Int) (f : Nat) (stream : List Nat) (off : Nat) (idx : Index)
    (e : entry) (n : Nat) (rest : List Nat)
    (hdec : entry.DecodeFromReader stream = .ok e n rest) :
    scanLoop sid (f + 1) stream off idx =
      scanLoop sid f rest (off + n) (idxPut idx e.key ⟨sid, off⟩) := by
  simp only [scanLoop, hdec]

theorem scanLoop_eof (sid : Int) (f : Nat) (stream : List Nat) (off : Nat) (idx : Index)
    (hdec : entry.DecodeFromReader stream = .err .eof) :
    scanLoop sid f stream off idx = (idx, none) := by
  cases f with
  | zero => rfl
  | succ f2 => simp only [scanLoop, hdec]

theorem dfr_zero_block (tl : List Nat) :
    entry.DecodeFromReader (List.replicate 8 0 ++ tl) = .ok ⟨[], []⟩ 8 tl := by
  have h8 : (List.replicate 8 (0 : Nat)).length = 8 := by decide
  have hL : (List.replicate 8 0 ++ tl).length = 8 + tl.length := by
    rw [List.length_append, h8]
  have hrf : readFull (List.replicate 8 0 ++ tl) 8 = .ok (List.replicate 8 0) tl := by
    unfold readFull
    rw [if_neg (by omega), if_neg (by omega), if_neg (by omega)]
    rw [List.take_left' h8, List.drop_left' h8]
  simp only [entry.DecodeFromReader, hrf]
  have hk : le32dec ((List.replicate 8 (0 : Nat)).take 4) = 0 := by decide
  have hv : le32dec ((List.replicate 8 (0 : Nat)).drop 4) = 0 := by decide
  rw [hk, hv]
  simp only [readFull, u32]
  norm_num

theorem scanLoop_zeros (m : Nat) (sid : Int) (f : Nat) (rest : List Nat) (off : Nat)
    (idx : Index) :
    ∃ idx2, scanLoop sid (m + f) (List.replicate (8 * m) 0 ++ rest) off idx =
      scanLoop sid f rest (off + 8 * m) idx2 ∧
      ∀ k2, k2 ≠ [] → idxFind idx2 k2 = idxFind idx k2 := by
  induction m generalizing off idx with
  | zero =>
    refine ⟨idx, ?_, fun k2 _ => rfl⟩
    rw [Nat.mul_zero, List.replicate_zero, List.nil_append, Nat.zero_add, Nat.add_zero]
  | succ m2 ih =>
    have hsplit : List.replicate (8 * (m2 + 1)) (0 : Nat) ++ rest =
        List.replicate 8 0 ++ (List.replicate (8 * m2) 0 ++ rest) := by
      rw [← List.append_assoc, ← List.replicate_add]
      have : 8 + 8 * m2 = 8 * (m2 + 1) := by ring
      rw [this]
    have hfuel : m2 + 1 + f = (m2 + f) + 1 := by omega
    rw [hsplit, hfuel]
    rw [scanLoop_step sid (m2 + f) _ off idx ⟨[], []⟩ 8 _
      (dfr_zero_block (List.replicate (8 * m2) 0 ++ rest))]
    rcases ih (off + 8) (idxPut idx [] ⟨sid, off⟩) with ⟨idx2, heq, hpres⟩
    refine ⟨idx2, ?_, ?_⟩
    · rw [heq]
      have : off + 8 + 8 * m2 = off + 8 * (m2 + 1) := by ring
      rw [this]
    · intro k2 hk2
      rw [hpres k2 hk2, idxFind_idxPut, if_neg hk2]

theorem dfr_one_byte (b : Nat) (tl : List Nat) :
    entry.DecodeFromReader (([0,0,0,0,1,0,0,0] : List Nat) ++ (b :: tl)) =
      .ok ⟨[], [b]⟩ 9 tl := by
  have h8 : (([0,0,0,0,1,0,0,0] : List Nat)).length = 8 := rfl
  have hL : ((([0,0,0,0,1,0,0,0] : List Nat)) ++ (b :: tl)).length = 8 + (b :: tl).length := by
    rw [List.length_append, h8]
  have hrf : readFull ((([0,0,0,0,1,0,0,0] : List Nat)) ++ (b :: tl)) 8 =
      .ok ([0,0,0,0,1,0,0,0]) (b :: tl) := by
    unfold readFull
    rw [if_neg (by omega), if_neg (by rw [hL]; omega), if_neg (by rw [hL]; simp)]
    rw [List.take_left' h8, List.drop_left' h8]
  simp only [entry.DecodeFromReader, hrf]
  have hk : le32dec ((([0,0,0,0,1,0,0,0] : List Nat)).take 4) = 0 := by decide
  have hv : le32dec ((([0,0,0,0,1,0,0,0] : List Nat)).drop 4) = 1 := by decide
  rw [hk, hv]
  have hrf2 : readFull (b :: tl) (u32 (0 + 1)) = .ok [b] tl := by
    unfold readFull
    have hu : u32 (0 + 1) = 1 := rfl
    rw [hu, if_neg (by omega), if_neg (by simp), if_neg (by simp)]
    rfl
  rw [hrf2]
  norm_num

theorem giantKey_ne_nil : giantKey ≠ [] := by
  intro hc
  have h2 := congrArg List.length hc
  rw [giantKey_length] at h2
  exact absurd h2 (by norm_num)

theorem giantKey_cons : giantKey = 0 :: List.replicate 4294967295 0 := by
  rw [giantKey]
  have hn : (4294967296 : Nat) = 4294967295 + 1 := by norm_num
  rw [hn, List.replicate_succ]

theorem doPut_dirOf_no_rotate (env : List Char) (k v : List Nat) (db : DB)
    (h : ¬ goUpdateThreshold env db.maxSegmentSize ≤
      ((db.active.size + (entry.Encode ⟨k, v⟩).length : Nat) : Int)) :
    dirOf (doPut env k v db) =
      ⟨db.segments.map (fun s => (s.id, s.data)), db.active.data ++ entry.Encode ⟨k, v⟩⟩ := by
  simp only [doPut]
  rw [if_neg h]
  rfl

theorem lastPut_single (k v : List Nat) : lastPut [(k, v)] k = some v := by
  simp [lastPut]

theorem envBig_threshold : goUpdateThreshold envBig initDB.maxSegmentSize = 99999999999999999 := by
  decide

theorem giantEncode_length : (entry.Encode ⟨giantKey, [5]⟩).length = 4294967305 := by
  rw [encode_length, giantKey_length]
  norm_num

theorem giantPut_dir : dirOf (run initDB [Op.putOp envBig giantKey [5]]) =
    ⟨[], entry.Encode ⟨giantKey, [5]⟩⟩ := by
  simp only [run, step]
  rw [doPut_dirOf_no_rotate envBig giantKey [5] initDB (by
    rw [envBig_threshold, giantEncode_length]
    norm_num [initDB])]
  rw [show initDB.segments = [] from rfl, show initDB.active.data = [] from rfl,
    List.map_nil, List.nil_append]

theorem giantEncode_split : entry.Encode ⟨giantKey, [5]⟩ =
    ([0,0,0,0,1,0,0,0] : List Nat) ++ (0 :: (List.replicate 4294967295 0 ++ [5])) := by
  rw [encode_def, giantKey_length, giantKey_cons]
  norm_num [le32enc]

theorem giantScan_step1 : scanLoop (-1) (entry.Encode ⟨giantKey, [5]⟩).length
      (entry.Encode ⟨giantKey, [5]⟩) 0 [] =
    scanLoop (-1) 4294967304 (List.replicate 4294967295 0 ++ [5]) 9
      (idxPut [] [] ⟨-1, 0⟩) := by
  rw [giantEncode_length, show (4294967305 : Nat) = 4294967304 + 1 from by norm_num]
  conv_lhs => rw [giantEncode_split]
  rw [scanLoop_step (-1) 4294967304 _ 0 [] ⟨[], [0]⟩ 9 _
    (dfr_one_byte 0 (List.replicate 4294967295 0 ++ [5]))]

theorem giantScan_full : ∃ idx2, scanLoop (-1) (entry.Encode ⟨giantKey, [5]⟩).length
      (entry.Encode ⟨giantKey, [5]⟩) 0 [] = (idx2, none) ∧
    ∀ k2, k2 ≠ [] → idxFind idx2 k2 = idxFind (idxPut [] [] ⟨-1, 0⟩) k2 := by
  have htail : List.replicate 4294967295 (0 : Nat) ++ [5] =
      List.replicate (8 * 536870911) 0 ++ (List.replicate 7 0 ++ [5]) := by
    have hn : (4294967295 : Nat) = 8 * 536870911 + 7 := by norm_num
    conv_lhs => rw [hn, List.replicate_add, List.append_assoc]
  have hf2 : (4294967304 : Nat) = 536870911 + 3758096393 := by norm_num
  rcases scanLoop_zeros 536870911 (-1) 3758096393 (List.replicate 7 0 ++ [5]) 9
      (idxPut [] [] ⟨-1, 0⟩) with ⟨idx2, heq, hpres⟩
  have hrep7 : List.replicate 7 (0 : Nat) ++ [5] = [0,0,0,0,0,0,0,5] := by decide
  have hdf : entry.DecodeFromReader [0,0,0,0,0,0,0,5] = .err .eof := by decide
  refine ⟨idx2, ?_, hpres⟩
  rw [giantScan_step1, htail, hf2, heq]
  rw [scanLoop_eof (-1) 3758096393 (List.replicate 7 0 ++ [5]) _ idx2
    (by rw [hrep7]; exact hdf)]

theorem Open_single_active (d : List Nat) (idx2 : Index)
    (h2 : scanLoop (-1) d.length d 0 [] = (idx2, none)) :
    Open ⟨[], d⟩ = .ok (DB.mk [] (segment.mk (-1) d.length d) idx2 10485760) := by
  simp only [Open, loadSegments, sortById, List.map_nil, List.nil_append,
    scanAll, scanSegment, h2]

theorem Get_notFound_of (db : DB) (k : List Nat) (h : idxFind db.index k = none) :
    DB.Get db k = .err .notFound := by
  simp only [DB.Get, h]

theorem recsOfOps_single (e : List Char) (k v : List Nat) :
    recsOfOps [Op.putOp e k v] = [(k, v)] := rfl

/-- C3 counterexample: one successful `Put` of a 2^32-byte key (with a
threshold large enough that no rotation occurs), then `Open` on the
resulting directory.  Recovery succeeds, but the scan re-reads the file
through the truncated u32 header, indexes only garbage keys, and `Get` of
the written key reports `NotFound` instead of its last value. -/
theorem c3_giantkey_cex :
    ∃ db2, Open (dirOf (run initDB [Op.putOp envBig giantKey [5]])) = .ok db2 ∧
      DB.Get db2 giantKey = .err .notFound ∧
      lastPut (recsOfOps [Op.putOp envBig giantKey [5]]) giantKey = some [5] := by
  rcases giantScan_full with ⟨idx2, h2, hpres⟩
  have hfind : idxFind idx2 giantKey = none := by
    rw [hpres giantKey giantKey_ne_nil, idxFind_idxPut, if_neg giantKey_ne_nil]
    rfl
  refine ⟨_, by rw [giantPut_dir]; exact Open_single_active (entry.Encode ⟨giantKey, [5]⟩) idx2 h2,
    ?_, ?_⟩
  · exact Get_notFound_of _ giantKey hfind
  · rw [recsOfOps_single]
    exact lastPut_single giantKey [5]

end datastore
